import Mathlib

/-!
Verification of the path-resolution and field-path parsing core of an
in-memory document-database emulator (`mockfirestore`).

The development shallowly embeds the two source files:
  * `mockfirestore/_helpers.py` — nested-store traversal (`get_by_path`,
    `set_by_path`, `delete_by_path`), the flattened document iterator
    (`get_document_iterator`), and the field-path lexer/parser
    (`_tokenize_field_path`, `split_field_path`, `parse_field_path`);
  * `mockfirestore/client.py` — the `MockFirestore` client with its
    slash-path `document`/`collection` resolvers, `_ensure_path` walk and
    `reset`.

Python `dict`s are embedded as insertion-ordered association lists; Python
exceptions become explicit error values; mutation becomes explicit state
passing.  Object identity of the top-level `_data` dict (needed to reason
about `reset` rebinding it) is embedded with a small heap of store objects.
-/

set_option autoImplicit false

/-- A Python value stored in a document tree: either an opaque non-mapping
value (`leaf`, indexed by a `Nat` so distinct scalars can be told apart) or
a nested string-keyed mapping (`dict`), embedded as an insertion-ordered
association list exactly like a Python `dict`. -/
inductive Value where
  | leaf : Nat → Value
  | dict : List (String × Value) → Value
  deriving Repr

/-- The entries of a Python `dict`, in insertion order. -/
abbrev Fields := List (String × Value)

/-- Embeds Python `d[k]` lookup on a dict: the value at the first matching
key, if any (keys of a Python dict are unique, so "first" is exact). -/
def assocFind (d : Fields) (k : String) : Option Value :=
  match d with
  | [] => none
  | (k', v) :: rest => if k' = k then some v else assocFind rest k

/-- Embeds Python `d[k] = v` on a dict: replace the value at an existing
key in place (keeping its position), otherwise append the pair at the end —
exactly the insertion-order behaviour of a Python dict assignment. -/
def assocSet (d : Fields) (k : String) (v : Value) : Fields :=
  match d with
  | [] => [(k, v)]
  | (k', v') :: rest => if k' = k then (k, v) :: rest else (k', v') :: assocSet rest k v

/-- Embeds Python `del d[k]` on a dict: remove the entry with key `k`.
Keys of a Python dict are unique, so removing every matching entry agrees
with removing the one entry. -/
def assocDel (d : Fields) (k : String) : Fields :=
  d.filter (fun p => p.1 ≠ k)

/-- Errors raised by the embedded operations.  `keyError` is Python's
`KeyError` (the payload is the offending key — and nothing else, exactly as
`operator.getitem` raises it); `typeError` is the `TypeError` produced by
indexing or membership-testing a non-mapping; `indexError` is the
`IndexError` from `path[-1]` on an empty path; `invalidArgument` is the
`Exception("Cannot create document/collection at path ...")` parity error of
the client; `attributeError` marks calling an accessor a reference type does
not have. -/
inductive Err where
  | keyError : String → Err
  | typeError : Err
  | indexError : Err
  | invalidArgument : Err
  | attributeError : Err
  deriving DecidableEq, Repr

/-- Embeds `get_by_path(data, path)` with `create_nested=False`
(`_helpers.py` lines 15–26): `reduce(operator.getitem, path, data)`.
A missing key raises `KeyError(key)`; indexing a non-mapping raises
`TypeError`.  The traversal performs no mutation, which is why it is a pure
function of its arguments here. -/
def get_by_path : Value → List String → Except Err Value
  | v, [] => .ok v
  | .dict d, k :: ks =>
    match assocFind d k with
    | some v => get_by_path v ks
    | none => .error (.keyError k)
  | .leaf _, _ :: _ => .error .typeError

/-- Embeds `set_by_path(data, path, value)` (`_helpers.py` lines 29–31):
`get_by_path(data, path[:-1], create_nested=True)[path[-1]] = value`.
The prefix walk uses `get_or_create` (`if b not in a: a[b] = {}`), creating
empty mappings for absent keys; the final segment is then assigned.
Returns the post-state together with the raised exception, if any: the
mappings created before an error stays created, exactly as in Python. -/
def set_by_path : Value → List String → Value → Value × Option Err
  | root, [], _ =>
    -- `path[:-1]` is `[]`, so the reduce returns `data`; evaluating
    -- `path[-1]` then raises IndexError, before any mutation.
    (root, some .indexError)
  | .dict d, [k], v => (.dict (assocSet d k v), none)
  | .leaf x, [_], _ => (.leaf x, some .typeError)
  | .dict d, k :: ks, v =>
    -- prefix segment (`ks ≠ []` here): `get_or_create`
    match assocFind d k with
    | some child =>
      let r := set_by_path child ks v
      (.dict (assocSet d k r.1), r.2)
    | none =>
      let r := set_by_path (.dict []) ks v
      (.dict (assocSet d k r.1), r.2)
  | .leaf x, _ :: _, _ =>
    -- `b not in a` with a non-mapping `a` raises TypeError
    (.leaf x, some .typeError)

/-- Embeds `delete_by_path(data, path)` (`_helpers.py` lines 34–36):
`del get_by_path(data, path[:-1])[path[-1]]`.  The prefix is traversed
without creation (errors as in `get_by_path`); the final key is then
deleted, raising `KeyError` if absent.  Returns post-state and error. -/
def delete_by_path : Value → List String → Value × Option Err
  | root, [] => (root, some .indexError)
  | .dict d, [k] =>
    match assocFind d k with
    | some _ => (.dict (assocDel d k), none)
    | none => (.dict d, some (.keyError k))
  | .leaf x, [_] => (.leaf x, some .typeError)
  | .dict d, k :: ks =>
    match assocFind d k with
    | some child =>
      let r := delete_by_path child ks
      (.dict (assocSet d k r.1), r.2)
    | none => (.dict d, some (.keyError k))
  | .leaf x, _ :: _ => (.leaf x, some .typeError)

/-- Decides the precondition "every value already present at an
intermediate position along the given path is a mapping": walking the
segments from a root, any existing value met must be a `dict`; once a
segment is absent the remaining levels are not present at all (they would
be auto-created), so the check succeeds. -/
def pathClear : Value → List String → Bool
  | _, [] => true
  | .dict d, k :: ks =>
    match assocFind d k with
    | some (.dict d') => pathClear (.dict d') ks
    | some (.leaf _) => false
    | none => true
  | .leaf _, _ :: _ => false

/-- Embeds `get_document_iterator(document, prefix)` (`_helpers.py` lines
65–77), the flattened dot-path view of a document.  For each entry in
insertion order: if the value is itself a mapping, first recurse into it
**with the bare key as the new prefix** (the source passes `prefix=key`,
not the accumulated path), yielding all of the child's pairs; then — for
every entry, mapping or not — yield the entry itself, keyed by its bare
name when the prefix is empty and by `prefix.key` otherwise. -/
def get_document_iterator (document : Fields) (pre : String) : List (String × Value) :=
  match document with
  | [] => []
  | (key, .dict d) :: rest =>
    get_document_iterator d key ++
      ((if pre = "" then key else pre ++ "." ++ key), Value.dict d) ::
        get_document_iterator rest pre
  | (key, .leaf n) :: rest =>
    ((if pre = "" then key else pre ++ "." ++ key), Value.leaf n) ::
      get_document_iterator rest pre

/-! ### PathCodec: field-path lexing and parsing (`_helpers.py` lines 95–202) -/

/-- First character of a `SIMPLE` token: the regex class `[_a-zA-Z]`. -/
def simpleStart (c : Char) : Bool :=
  ('a' ≤ c && c ≤ 'z') || ('A' ≤ c && c ≤ 'Z') || c = '_'

/-- Continuation character of a `SIMPLE` token: the class `[_a-zA-Z0-9]`. -/
def simpleCont (c : Char) : Bool :=
  simpleStart c || ('0' ≤ c && c ≤ '9')

/-- A full match of `_SIMPLE_FIELD_NAME = re.compile("^[_a-zA-Z][_a-zA-Z0-9]*$")`. -/
def isSimpleName (w : List Char) : Bool :=
  match w with
  | [] => false
  | c :: cs => simpleStart c && cs.all simpleCont

/-- The body of the lazy `QUOTED` token regex `` `(?:\\`|[^`])*?` ``,
applied just after the opening backtick.  Returns the matched interior and
the remaining input after the closing backtick.

The Python regex engine tries, at each position, to close first (so a bare
backtick always ends the match), then the alternatives in order: the
escaped-backtick pair `` \` `` before the single-character class `` [^`] ``.
If committing to the pair makes the rest of the token unmatchable, the
engine backtracks, consumes the backslash alone and closes on the backtick
— the `none => some (['\\'], r)` fallback below.  A failure below a
single-character step has no other alternative and propagates. -/
def lexQuoted : List Char → Option (List Char × List Char)
  | [] => none
  | [c] => if c = '`' then some ([], []) else none
  | c :: c2 :: r =>
    if c = '`' then some ([], c2 :: r)
    else if c = '\\' && c2 = '`' then
      match lexQuoted r with
      | some (i, r') => some ('\\' :: '`' :: i, r')
      | none => some (['\\'], r)
    else
      match lexQuoted (c2 :: r) with
      | some (i, r') => some (c :: i, r')
      | none => none

/-- One pass of `_tokenize_field_path` (`_helpers.py` lines 120–138):
repeatedly match `TOKENS_REGEX = SIMPLE|QUOTED|DOT` at the current
position and yield the token values; if no token matches before the end of
the input, the residue makes the whole lexing raise `ValueError` (`none`).
The three token classes start with disjoint characters (`[_a-zA-Z]`,
`` ` ``, `.`), so dispatching on the first character is exact, and `SIMPLE`
is a greedy character-class match (`takeWhile`).

The `Nat` argument is recursion fuel: every token consumes at least one
character, so fuel equal to the input length (as supplied by
`tokenizeChars`) can never run out. -/
def tokensGo : Nat → List Char → Option (List (List Char))
  | _, [] => some []
  | 0, _ :: _ => none
  | f + 1, c :: r =>
    if simpleStart c then
      (tokensGo f (r.dropWhile simpleCont)).map ((c :: r.takeWhile simpleCont) :: ·)
    else if c = '`' then
      match lexQuoted r with
      | some (i, rest) => (tokensGo f rest).map (('`' :: (i ++ ['`'])) :: ·)
      | none => none
    else if c = '.' then
      (tokensGo f r).map (['.'] :: ·)
    else none

/-- `_tokenize_field_path(path)`, as a function on character lists:
`some tokens`, or `none` when the path has unconsumed residue. -/
def tokenizeChars (cs : List Char) : Option (List (List Char)) :=
  tokensGo cs.length cs

/-- The element/delimiter alternation loop of `split_field_path`
(`_helpers.py` lines 155–173), carrying `want_dot` and the accumulated
elements (most recent first, as Python appends; reversed at the end).
Returns `none` where Python raises `ValueError("Invalid path: ...")`:
a dot where an element is expected, an element where a dot is expected, a
trailing dot (`not want_dot`), or no elements at all. -/
def splitLoop : List (List Char) → Bool → List (List Char) → Option (List (List Char))
  | [], wantDot, acc => if !wantDot || acc.isEmpty then none else some acc.reverse
  | t :: ts, true, acc => if t = ['.'] then splitLoop ts false acc else none
  | t :: ts, false, acc => if t = ['.'] then none else splitLoop ts true (t :: acc)

/-- Embeds `split_field_path(path)` (`_helpers.py` lines 141–173) on
character lists: the empty path yields the empty element sequence; any
other path is lexed and fed through the alternation loop. -/
def splitFieldPathChars (cs : List Char) : Option (List (List Char)) :=
  match cs with
  | [] => some []
  | _ =>
    match tokenizeChars cs with
    | none => none
    | some toks => splitLoop toks false []

/-- Python's `str.replace(_ESCAPED_BACKTICK, _BACKTICK)`: rewrite each
left-to-right, non-overlapping occurrence of `` \` `` to `` ` ``. -/
def replTick : List Char → List Char
  | [] => []
  | [c] => [c]
  | c :: c2 :: r =>
    if c = '\\' && c2 = '`' then '`' :: replTick r
    else c :: replTick (c2 :: r)

/-- Python's `str.replace(_ESCAPED_BACKSLASH, _BACKSLASH)`: rewrite each
left-to-right, non-overlapping occurrence of `\\` to `\`. -/
def replSlash : List Char → List Char
  | [] => []
  | [c] => [c]
  | c :: c2 :: r =>
    if c = '\\' && c2 = '\\' then '\\' :: replSlash r
    else c :: replSlash (c2 :: r)

/-- The per-element unescaping step of `parse_field_path` (`_helpers.py`
lines 195–201): an element whose first and last characters are backticks is
stripped of them and unescaped (backtick first, then backslash, in source
order); every other element passes through unchanged. -/
def unescapeElem (t : List Char) : List Char :=
  if t.head? = some '`' && t.getLast? = some '`' then
    replSlash (replTick t.tail.dropLast)
  else t

/-- Embeds `parse_field_path(api_repr)` (`_helpers.py` lines 176–202):
split the field path into raw elements, then unescape each.  `none` is the
`ValueError` (ParseError) of the split/lex stage. -/
def parse_field_path (api_repr : String) : Option (List String) :=
  (splitFieldPathChars api_repr.data).map (fun els => els.map (fun e => String.mk (unescapeElem e)))

/-! ### Rendering field paths

`MockFirestore.field_path` (`client.py` lines 63–65) delegates to
`render_field_path` imported from `google.cloud.firestore_v1.field_path`,
which is not part of this repository's sources. -/

/-- The escaped body of a quoted element: each backslash becomes `\\` and
each backtick becomes `` \` `` (the two escapes of the grammar). -/
def escBody : List Char → List Char
  | [] => []
  | c :: cs =>
    (if c = '\\' then ['\\', '\\'] else if c = '`' then ['\\', '`'] else [c]) ++ escBody cs

/-- Modelled from the spec: the per-name escaping step of the missing
`render_field_path` helper — "quoting with backticks and escaping
backslash/backtick whenever a name fails the simple-identifier grammar";
a simple name passes through unquoted. -/
def escapeName (w : List Char) : List Char :=
  if isSimpleName w then w else '`' :: (escBody w ++ ['`'])

/-- Modelled from the spec: the missing `render_field_path` joins the
escaped names with the `.` delimiter. -/
def renderChars : List (List Char) → List Char
  | [] => []
  | [w] => escapeName w
  | w :: ws => escapeName w ++ '.' :: renderChars ws

/-- Modelled from the spec: `render_field_path(field_names)` — imported by
`client.py` from `google.cloud.firestore_v1.field_path`, absent from
`src/` — "must render a sequence of raw field names back into a single
field-path string, quoting with backticks and escaping backslash/backtick
whenever a name fails the simple-identifier grammar". -/
def render_field_path (field_names : List String) : String :=
  String.mk (renderChars (field_names.map String.data))

/-- The token sequence the lexer is expected to produce on a rendered
field path: the escaped names interspersed with dot tokens.  Used to state
the render/parse round-trip. -/
def expectedTokens : List (List Char) → List (List Char)
  | [] => []
  | [w] => [escapeName w]
  | w :: ws => escapeName w :: ['.'] :: expectedTokens ws

/-! ### ReferenceResolver: the `MockFirestore` client (`client.py`)

The reference classes (`CollectionReference`, `DocumentReference`) live in
modules that are not part of `src/`; the accessors the client calls on them
are modelled from the spec and marked as such below.  Because `reset`
rebinds `self._data` to a fresh dict while previously created references
keep the old one, the client state carries a small heap of store objects:
`stores` is the list of every `_data` dict ever created (index = object
identity) and `cur` is the index of the dict currently bound to
`self._data`. -/

/-- Python's `path.split("/")`: splitting the empty string yields `[""]`;
consecutive separators yield empty segments.  Never returns `[]`. -/
def splitSlashCh : List Char → List (List Char)
  | [] => [[]]
  | '/' :: r => [] :: splitSlashCh r
  | c :: r =>
    match splitSlashCh r with
    | [] => [[c]]
    | s :: ss => (c :: s) :: ss

/-- The segments of a location path string, as strings. -/
def splitSlash (s : String) : List String :=
  (splitSlashCh s.data).map String.mk

/-- The state of a `MockFirestore` instance plus the heap of `_data` dict
objects it has ever owned: `stores[cur]` is the dict currently bound to
`self._data`; earlier indices are dicts still held by old references. -/
structure MFState where
  stores : List Fields
  cur : Nat
  deriving Repr

/-- A fresh client: `__init__` binds `self._data = {}`. -/
def initState : MFState := ⟨[[]], 0⟩

/-- The dict object currently bound to `self._data`. -/
def MFState.curStore (s : MFState) : Fields := s.stores.getD s.cur []

/-- Replace the contents of store object `i` (in-place mutation of that
dict). -/
def MFState.putStore (s : MFState) (i : Nat) (d : Fields) : MFState :=
  { s with stores := s.stores.set i d }

/-- Embeds `reset` (`client.py` lines 51–52): `self._data = {}` rebinds the
attribute to a **fresh** empty dict; the old dict object is untouched and
remains referenced by any previously created reference. -/
def MFState.reset (s : MFState) : MFState :=
  { stores := s.stores ++ [[]], cur := s.stores.length }

/-- The "current position" values `_ensure_path` walks over: the client
itself (`MockFirestore`), or a collection/document reference, each holding
the identity of the `_data` dict it was created with plus its path. -/
inductive Position where
  | root
  | col (store : Nat) (path : List String)
  | doc (store : Nat) (path : List String)
  deriving DecidableEq, Repr

/-- The single-segment branch of `MockFirestore.collection` (`client.py`
lines 46–49): `if name not in self._data: self._data[name] = {}` then
`return CollectionReference(self._data, [name])`.  Also exactly what
`_ensure_path` triggers when the current position is the client itself:
`current_position.collection(el)` re-enters `collection` with a single
slash-free segment, whose parity check (`len == 1`, odd) passes. -/
def colSingle (s : MFState) (name : String) : MFState × Position :=
  let d := s.curStore
  let d' := if (assocFind d name).isSome then d else assocSet d name (.dict [])
  (s.putStore s.cur d', .col s.cur [name])

/-- Modelled from the spec: `CollectionReference.document(id)` — the
reference classes are not in `src/` — descends into the named document of
the collection, producing a document reference on the same store with the
extended path; "the document entry itself is not created merely by
referencing it", so the state is untouched. -/
def colDocument (p : Position) (id' : String) : Position :=
  match p with
  | .col st pth => .doc st (pth ++ [id'])
  | other => other

/-- Creates an empty mapping at each segment of `pth` that is absent,
descending through existing mappings; an existing non-mapping value is left
alone (unreachable through the client operations modelled here). -/
def ensureAt (d : Fields) (pth : List String) : Fields :=
  match pth with
  | [] => d
  | k :: ks =>
    match assocFind d k with
    | some (.dict d') => assocSet d k (.dict (ensureAt d' ks))
    | some (.leaf x) => assocSet d k (.leaf x)
    | none => assocSet d k (.dict (ensureAt [] ks))

/-- Modelled from the spec: `DocumentReference.collection(name)` — the
reference classes are not in `src/` — "returns the named sub-collection of
the resolved parent document, creating it if absent" ("collections may be
materialized as empty on mere reference"). -/
def docCollection (s : MFState) (st : Nat) (pth : List String) (name : String) :
    MFState × Position :=
  (s.putStore st (ensureAt (s.stores.getD st []) (pth ++ [name])), .col st (pth ++ [name]))

/-- Embeds `_ensure_path` (`client.py` lines 16–25) applied to the
non-final segments: starting from the client itself, each segment descends
via `.collection(el)` when the current position is the client or a
document reference (the `type(...) in (MockFirestore, DocumentReference)`
dispatch) and via `.document(el)` otherwise. -/
def ensureWalk (s : MFState) (p : Position) (segs : List String) : MFState × Position :=
  match segs with
  | [] => (s, p)
  | el :: rest =>
    match p with
    | .root =>
      let r := colSingle s el
      ensureWalk r.1 r.2 rest
    | .doc st pth =>
      let r := docCollection s st pth el
      ensureWalk r.1 r.2 rest
    | .col st pth => ensureWalk s (colDocument (.col st pth) el) rest

/-- The final `current_position.document(path[-1])` step of
`MockFirestore.document`.  After walking the odd-length prefix the current
position is always a collection reference, handled by the spec-modelled
`colDocument`; the other branches record what Python would do if they were
reachable (the client would re-enter `document` with one segment and fail
the parity check, and a `DocumentReference` has no `document` attribute). -/
def posDocument (s : MFState) (p : Position) (name : String) :
    MFState × Except Err Position :=
  match p with
  | .col st pth => (s, .ok (colDocument (.col st pth) name))
  | .root => (s, .error .invalidArgument)
  | .doc _ _ => (s, .error .attributeError)

/-- The final `current_position.collection(name)` step of the multi-segment
branch of `MockFirestore.collection`; the current position is always a
document reference there.  A `CollectionReference` has no `collection`
attribute. -/
def posCollection (s : MFState) (p : Position) (name : String) :
    MFState × Except Err Position :=
  match p with
  | .doc st pth =>
    let r := docCollection s st pth name
    (r.1, .ok r.2)
  | .root =>
    let r := colSingle s name
    (r.1, .ok r.2)
  | .col _ _ => (s, .error .attributeError)

/-- Embeds `MockFirestore.document(path)` (`client.py` lines 27–34): split
on `/`; an odd segment count raises `Exception("Cannot create document at
path ...")` (the spec's InvalidArgument); otherwise walk the non-final
segments with `_ensure_path` and take `.document(path[-1])` on the
resulting position. -/
def clientDocument (s : MFState) (p : String) : MFState × Except Err Position :=
  let path := splitSlash p
  if path.length % 2 ≠ 0 then (s, .error .invalidArgument)
  else
    let r := ensureWalk s .root path.dropLast
    posDocument r.1 r.2 (path.getLastD "")

/-- Embeds `MockFirestore.collection(path)` (`client.py` lines 36–49):
split on `/`; an even segment count raises `Exception("Cannot create
collection at path ...")` (the spec's InvalidArgument); a single-segment
path takes the direct top-level branch (`colSingle`); a longer path walks
the non-final segments and takes `.collection(name)` on the result. -/
def clientCollection (s : MFState) (p : String) : MFState × Except Err Position :=
  let path := splitSlash p
  if path.length % 2 ≠ 1 then (s, .error .invalidArgument)
  else
    let name := path.getLastD ""
    if 1 < path.length then
      let r := ensureWalk s .root path.dropLast
      posCollection r.1 r.2 name
    else
      let r := colSingle s name
      (r.1, .ok r.2)

/-! ### Supporting lemmas -/

theorem assocFind_assocSet_self (d : Fields) (k : String) (v : Value) :
    assocFind (assocSet d k v) k = some v := by
  induction d with
  | nil => simp [assocSet, assocFind]
  | cons p rest ih =>
    obtain ⟨k', v'⟩ := p
    by_cases h : k' = k <;> simp [assocSet, assocFind, h, ih]

theorem assocSet_of_find_eq {d : Fields} {k : String} {v : Value}
    (h : assocFind d k = some v) : assocSet d k v = d := by
  induction d with
  | nil => simp [assocFind] at h
  | cons p rest ih =>
    obtain ⟨k', v'⟩ := p
    by_cases hk : k' = k
    · simp [assocFind, hk] at h
      simp [assocSet, hk, h]
    · simp [assocFind, hk] at h
      simp [assocSet, hk, ih h]

theorem pathClear_empty (l : List String) : pathClear (.dict []) l = true := by
  cases l <;> simp [pathClear, assocFind]

theorem assocFind_assocDel_self (d : Fields) (k : String) :
    assocFind (assocDel d k) k = none := by
  induction d with
  | nil => simp [assocDel, assocFind]
  | cons p rest ih =>
    obtain ⟨k', v'⟩ := p
    by_cases h : k' = k
    · simpa [assocDel, List.filter_cons, h] using ih
    · simpa [assocDel, List.filter_cons, h, assocFind] using ih

theorem assocSet_assocSet_self (d : Fields) (k : String) (a b : Value) :
    assocSet (assocSet d k a) k b = assocSet d k b := by
  induction d with
  | nil => simp [assocSet]
  | cons p rest ih =>
    obtain ⟨k', v'⟩ := p
    by_cases h : k' = k <;> simp [assocSet, h, ih]

theorem getLastD_irrel {α : Type} (l : List α) (h : l ≠ []) (a b : α) :
    l.getLastD a = l.getLastD b := by
  cases l with
  | nil => exact absurd rfl h
  | cons x xs => rfl

theorem splitSlashCh_ne_nil (cs : List Char) : splitSlashCh cs ≠ [] := by
  rw [splitSlashCh.eq_def]
  split
  · simp
  · simp
  · split <;> simp

theorem walk_alt (l : List String) : ∀ (s : MFState) (st : Nat) (pth : List String),
    (l.length % 2 = 0 →
      (∃ st2 p2, (ensureWalk s (.col st pth) l).2 = .col st2 p2) ∧
      (∃ st2 p2, (ensureWalk s (.doc st pth) l).2 = .doc st2 p2)) ∧
    (l.length % 2 = 1 →
      (∃ st2 p2, (ensureWalk s (.col st pth) l).2 = .doc st2 p2) ∧
      (∃ st2 p2, (ensureWalk s (.doc st pth) l).2 = .col st2 p2)) := by
  induction l with
  | nil =>
    intro s st pth
    exact ⟨fun _ => ⟨⟨st, pth, rfl⟩, ⟨st, pth, rfl⟩⟩, fun h => by simp at h⟩
  | cons el rest ih =>
    intro s st pth
    constructor
    · intro heven
      have hodd : rest.length % 2 = 1 := by simp at heven; omega
      constructor
      · -- col step: descend into document
        simpa [ensureWalk, colDocument] using ((ih s st (pth ++ [el])).2 hodd).2
      · -- doc step: descend into collection (materializing)
        simpa [ensureWalk, docCollection] using
          ((ih (docCollection s st pth el).1 st (pth ++ [el])).2 hodd).1
    · intro hodd
      have heven : rest.length % 2 = 0 := by simp at hodd; omega
      constructor
      · simpa [ensureWalk, colDocument] using ((ih s st (pth ++ [el])).1 heven).2
      · simpa [ensureWalk, docCollection] using
          ((ih (docCollection s st pth el).1 st (pth ++ [el])).1 heven).1

theorem walk_from_root (l : List String) (hne : l ≠ []) (s : MFState) :
    (l.length % 2 = 1 → ∃ st2 p2, (ensureWalk s .root l).2 = .col st2 p2) ∧
    (l.length % 2 = 0 → ∃ st2 p2, (ensureWalk s .root l).2 = .doc st2 p2) := by
  match l with
  | [] => exact absurd rfl hne
  | el :: rest =>
    constructor
    · intro hodd
      have heven : rest.length % 2 = 0 := by simp at hodd; omega
      exact ((walk_alt rest (colSingle s el).1 s.cur [el]).1 heven).1
    · intro heven
      have hodd : rest.length % 2 = 1 := by simp at heven; omega
      exact ((walk_alt rest (colSingle s el).1 s.cur [el]).2 hodd).1

theorem splitSlash_ne_nil (p : String) : splitSlash p ≠ [] := by
  simp [splitSlash, splitSlashCh_ne_nil]

theorem escBody_head_ne (cs : List Char) : (escBody cs).head? ≠ some '`' := by
  match cs with
  | [] => simp [escBody]
  | c :: cs' =>
    simp only [escBody]
    by_cases h1 : c = '\\'
    · simp [h1]
    · by_cases h2 : c = '`' <;> simp [h1, h2]

theorem escBody_ne_nil (c : Char) (cs : List Char) : escBody (c :: cs) ≠ [] := by
  simp only [escBody]
  by_cases h1 : c = '\\'
  · simp [h1]
  · by_cases h2 : c = '`' <;> simp [h1, h2]

theorem replTick_bs_cons (E : List Char) (h : E.head? ≠ some '`') :
    replTick ('\\' :: E) = '\\' :: replTick E := by
  match E with
  | [] => rfl
  | d :: es =>
    have hd : d ≠ '`' := by simpa using h
    simp [replTick, hd]

theorem replSlash_nonbs_cons (c : Char) (E : List Char) (h : c ≠ '\\') :
    replSlash (c :: E) = c :: replSlash E := by
  match E with
  | [] => rfl
  | d :: es => simp [replSlash, h]

theorem unescape_escBody (w : List Char) :
    replSlash (replTick (escBody w)) = w := by
  match w with
  | [] => rfl
  | c :: cs =>
    have ih := unescape_escBody cs
    by_cases h1 : c = '\\'
    · subst h1
      have h2 : escBody ('\\' :: cs) = '\\' :: '\\' :: escBody cs := by simp [escBody]
      rw [h2]
      have h3 : replTick ('\\' :: '\\' :: escBody cs)
          = '\\' :: replTick ('\\' :: escBody cs) := by
        simp [replTick]
      have h4 : replTick ('\\' :: escBody cs) = '\\' :: replTick (escBody cs) :=
        replTick_bs_cons _ (escBody_head_ne cs)
      rw [h3, h4]
      have h5 : replSlash ('\\' :: '\\' :: replTick (escBody cs))
          = '\\' :: replSlash (replTick (escBody cs)) := by
        simp [replSlash]
      rw [h5, ih]
    · by_cases h2 : c = '`'
      · subst h2
        have h3 : escBody ('`' :: cs) = '\\' :: '`' :: escBody cs := by simp [escBody, h1]
        rw [h3]
        have h4 : replTick ('\\' :: '`' :: escBody cs) = '`' :: replTick (escBody cs) := by
          simp [replTick]
        rw [h4, replSlash_nonbs_cons _ _ (by decide), ih]
      · have h3 : escBody (c :: cs) = c :: escBody cs := by simp [escBody, h1, h2]
        rw [h3]
        have h4 : replTick (c :: escBody cs) = c :: replTick (escBody cs) := by
          match hE : escBody cs with
          | [] => rfl
          | d :: es => simp [replTick, h1]
        rw [h4, replSlash_nonbs_cons _ _ h1, ih]

theorem getLast?_tail {c : Char} {cs : List Char} {x : Char}
    (h : (c :: cs).getLast? ≠ some x) : cs.getLast? ≠ some x := by
  match cs with
  | [] => simp
  | c2 :: cs2 => rwa [List.getLast?_cons_cons] at h

theorem lexQuoted_escBody (w : List Char) : ∀ (rest : List Char),
    w.getLast? ≠ some '\\' →
    lexQuoted (escBody w ++ '`' :: rest) = some (escBody w, rest) := by
  match w with
  | [] =>
    intro rest _
    match rest with
    | [] => rfl
    | r1 :: rr => rfl
  | c :: cs =>
    intro rest h
    by_cases h1 : c = '\\'
    · subst h1
      have hcs : cs ≠ [] := by
        intro hc
        subst hc
        simp at h
      have ih := lexQuoted_escBody cs rest (getLast?_tail h)
      have hE : escBody ('\\' :: cs) = '\\' :: '\\' :: escBody cs := by simp [escBody]
      rw [hE]
      rcases hshape : escBody cs with _ | ⟨d, es⟩
      · match cs, hcs with
        | c2 :: cs2, _ => exact absurd hshape (escBody_ne_nil c2 cs2)
      · have hd : d ≠ '`' := by
          have := escBody_head_ne cs
          rw [hshape] at this
          simpa using this
        rw [hshape] at ih
        simp only [List.cons_append] at ih
        show lexQuoted ('\\' :: '\\' :: (d :: es ++ '`' :: rest)) = _
        simp [lexQuoted, hd, ih]
    · by_cases h2 : c = '`'
      · subst h2
        have ih := lexQuoted_escBody cs rest (getLast?_tail h)
        have hE : escBody ('`' :: cs) = '\\' :: '`' :: escBody cs := by simp [escBody]
        rw [hE]
        show lexQuoted ('\\' :: '`' :: (escBody cs ++ '`' :: rest)) = _
        simp [lexQuoted, ih]
      · have ih := lexQuoted_escBody cs rest (getLast?_tail h)
        have hE : escBody (c :: cs) = c :: escBody cs := by simp [escBody, h1, h2]
        rw [hE]
        rcases hshape : escBody cs ++ '`' :: rest with _ | ⟨y, ys⟩
        · exact absurd hshape (by simp)
        · rw [hshape] at ih
          rw [List.cons_append, hshape]
          simp [lexQuoted, h1, h2, ih]

theorem simple_token_step (c : Char) (cr R : List Char) (f : Nat)
    (hc : simpleStart c = true) (hcr : ∀ x ∈ cr, simpleCont x = true)
    (hR : R = [] ∨ ∃ r', R = '.' :: r') :
    tokensGo (f + 1) (c :: (cr ++ R)) = (tokensGo f R).map ((c :: cr) :: ·) := by
  have htake : (cr ++ R).takeWhile simpleCont = cr := by
    rw [List.takeWhile_append_of_pos hcr]
    rcases hR with h | ⟨r', h⟩ <;> subst h
    · simp
    · simp [List.takeWhile_cons, simpleCont, simpleStart]
  have hdrop : (cr ++ R).dropWhile simpleCont = R := by
    rw [List.dropWhile_append_of_pos hcr]
    rcases hR with h | ⟨r', h⟩ <;> subst h
    · simp
    · simp [List.dropWhile_cons, simpleCont, simpleStart]
  simp [tokensGo, hc, htake, hdrop]

theorem quoted_token_step (w R : List Char) (f : Nat) (hw : w.getLast? ≠ some '\\') :
    tokensGo (f + 1) (('`' :: (escBody w ++ ['`'])) ++ R)
      = (tokensGo f R).map (('`' :: (escBody w ++ ['`'])) :: ·) := by
  have hshape : ('`' :: (escBody w ++ ['`'])) ++ R = '`' :: (escBody w ++ '`' :: R) := by
    simp
  rw [hshape]
  have hlex := lexQuoted_escBody w R hw
  simp [tokensGo, hlex, simpleStart]

theorem dot_step (R : List Char) (f : Nat) :
    tokensGo (f + 1) ('.' :: R) = (tokensGo f R).map (['.'] :: ·) := by
  simp [tokensGo, simpleStart]

theorem isSimpleName_shape (w : List Char) (h : isSimpleName w = true) :
    ∃ c cr, w = c :: cr ∧ simpleStart c = true ∧ ∀ x ∈ cr, simpleCont x = true := by
  match w with
  | [] => simp [isSimpleName] at h
  | c :: cr =>
    simp only [isSimpleName, Bool.and_eq_true, List.all_eq_true] at h
    exact ⟨c, cr, rfl, h.1, h.2⟩

theorem escapeName_length_pos (w : List Char) : 0 < (escapeName w).length := by
  by_cases hs : isSimpleName w
  · obtain ⟨c, cr, hw, _, _⟩ := isSimpleName_shape w hs
    subst hw
    simp [escapeName, hs]
  · simp [escapeName, hs]

theorem tokensGo_render (ns : List (List Char)) : ∀ (f : Nat),
    (∀ w ∈ ns, w.getLast? ≠ some '\\') →
    (renderChars ns).length ≤ f →
    tokensGo f (renderChars ns) = some (expectedTokens ns) := by
  match ns with
  | [] =>
    intro f _ _
    simp [renderChars, expectedTokens, tokensGo]
  | [w] =>
    intro f hlast hf
    have hw := hlast w (by simp)
    have hlen : 0 < (escapeName w).length := escapeName_length_pos w
    have hrc : renderChars [w] = escapeName w := rfl
    rw [hrc] at hf ⊢
    have hexp : expectedTokens [w] = [escapeName w] := rfl
    rw [hexp]
    match f, (by omega : 0 < f) with
    | f' + 1, _ =>
      by_cases hs : isSimpleName w
      · obtain ⟨c, cr, hweq, hc, hcr⟩ := isSimpleName_shape w hs
        subst hweq
        have he : escapeName (c :: cr) = c :: cr := by simp [escapeName, hs]
        rw [he]
        have hstep := simple_token_step c cr [] f' hc hcr (Or.inl rfl)
        rw [List.append_nil] at hstep
        rw [hstep]
        simp [tokensGo]
      · have he : escapeName w = '`' :: (escBody w ++ ['`']) := by simp [escapeName, hs]
        rw [he]
        have hstep := quoted_token_step w [] f' hw
        rw [List.append_nil] at hstep
        rw [hstep]
        simp [tokensGo]
  | w :: w2 :: ws =>
    intro f hlast hf
    have hw := hlast w (by simp)
    have hlen : 0 < (escapeName w).length := escapeName_length_pos w
    have hrc : renderChars (w :: w2 :: ws)
        = escapeName w ++ '.' :: renderChars (w2 :: ws) := rfl
    rw [hrc] at hf ⊢
    have hexp : expectedTokens (w :: w2 :: ws)
        = escapeName w :: ['.'] :: expectedTokens (w2 :: ws) := rfl
    rw [hexp]
    have hflen : (escapeName w).length + 1 + (renderChars (w2 :: ws)).length ≤ f := by
      simp [List.length_append] at hf
      omega
    match f, (by omega : 0 < f) with
    | f' + 1, _ =>
      have hstep : tokensGo (f' + 1) (escapeName w ++ '.' :: renderChars (w2 :: ws))
          = (tokensGo f' ('.' :: renderChars (w2 :: ws))).map (escapeName w :: ·) := by
        by_cases hs : isSimpleName w
        · obtain ⟨c, cr, hweq, hc, hcr⟩ := isSimpleName_shape w hs
          subst hweq
          have he : escapeName (c :: cr) = c :: cr := by simp [escapeName, hs]
          rw [he, List.cons_append]
          exact simple_token_step c cr _ f' hc hcr (Or.inr ⟨_, rfl⟩)
        · have he : escapeName w = '`' :: (escBody w ++ ['`']) := by simp [escapeName, hs]
          rw [he]
          exact quoted_token_step w _ f' hw
      rw [hstep]
      match f', (by omega : 0 < f') with
      | f'' + 1, _ =>
        rw [dot_step]
        have ih := tokensGo_render (w2 :: ws) f''
          (fun x hx => hlast x (List.mem_cons_of_mem _ hx)) (by omega)
        rw [ih]
        simp

theorem escapeName_ne_dot (w : List Char) : escapeName w ≠ ['.'] := by
  by_cases hs : isSimpleName w
  · obtain ⟨c, cr, hweq, hc, _⟩ := isSimpleName_shape w hs
    subst hweq
    have he : escapeName (c :: cr) = c :: cr := by simp [escapeName, hs]
    rw [he]
    intro hcon
    obtain ⟨hc', _⟩ := List.cons.injEq .. ▸ hcon
    subst hc'
    simp [simpleStart] at hc
  · simp [escapeName, hs]

theorem splitLoop_expected (ns : List (List Char)) : ∀ (acc : List (List Char)), ns ≠ [] →
    splitLoop (expectedTokens ns) false acc
      = some (acc.reverse ++ ns.map escapeName) := by
  match ns with
  | [] => intro acc h; exact absurd rfl h
  | [w] =>
    intro acc _
    have hd := escapeName_ne_dot w
    simp [expectedTokens, splitLoop, hd]
  | w :: w2 :: ws =>
    intro acc _
    have hd := escapeName_ne_dot w
    have ih := splitLoop_expected (w2 :: ws) (escapeName w :: acc) (by simp)
    simp only [expectedTokens, splitLoop, hd, if_neg, if_pos]
    simp [ih]

theorem unescapeElem_escapeName (w : List Char) : unescapeElem (escapeName w) = w := by
  by_cases hs : isSimpleName w
  · obtain ⟨c, cr, hweq, hc, _⟩ := isSimpleName_shape w hs
    subst hweq
    have he : escapeName (c :: cr) = c :: cr := by simp [escapeName, hs]
    rw [he]
    have hcne : c ≠ '`' := by
      intro hcon
      subst hcon
      simp [simpleStart] at hc
    simp [unescapeElem, hcne]
  · have he : escapeName w = '`' :: (escBody w ++ ['`']) := by simp [escapeName, hs]
    rw [he]
    have hlast : ('`' :: (escBody w ++ ['`'])).getLast? = some '`' := by
      rw [show '`' :: (escBody w ++ ['`']) = ('`' :: escBody w) ++ ['`'] by simp]
      exact List.getLast?_concat _
    simp only [unescapeElem, List.head?_cons, List.tail_cons, hlast]
    simp [List.dropLast_concat, unescape_escBody]

theorem renderChars_ne_nil (ns : List (List Char)) (h : ns ≠ []) :
    renderChars ns ≠ [] := by
  match ns with
  | [w] =>
    have := escapeName_length_pos w
    have hrc : renderChars [w] = escapeName w := rfl
    rw [hrc]
    intro hcon
    rw [hcon] at this
    simp at this
  | w :: w2 :: ws =>
    have hrc : renderChars (w :: w2 :: ws)
        = escapeName w ++ '.' :: renderChars (w2 :: ws) := rfl
    rw [hrc]
    simp

theorem stringMk_data (s : String) : String.mk s.data = s := rfl

/-! ### Claims -/

/-- Claim C1 (counterexample): `collection("")` does **not** fail — the
one-element split `[""]` has odd length, so the parity check passes and the
single-segment branch silently materialises a store entry under the
empty-string name and returns a reference to it. -/
theorem collection_empty_path_cx :
    (clientCollection initState "").2 = .ok (.col 0 [""]) ∧
    (clientCollection initState "").1.curStore = [("", Value.dict [])] :=
  ⟨rfl, rfl⟩

/-- Claim C1 (amended): on the empty path string, `document("")` fails with
the parity exception and leaves the state untouched, but `collection("")`
succeeds, returning a reference to a top-level collection named `""` and
materialising a store entry under that name. -/
theorem empty_path_rule (s : MFState) (hcur : s.cur < s.stores.length) :
    clientDocument s "" = (s, .error .invalidArgument) ∧
    (clientCollection s "").2 = .ok (.col s.cur [""]) ∧
    (assocFind (clientCollection s "").1.curStore "").isSome = true := by
  refine ⟨rfl, rfl, ?_⟩
  have hcs : (clientCollection s "").1.curStore
      = (if (assocFind s.curStore "").isSome then s.curStore
         else assocSet s.curStore "" (Value.dict [])) := by
    show (s.stores.set s.cur _).getD s.cur [] = _
    rw [List.getD_eq_getElem?_getD, List.getElem?_set_self hcur]
    rfl
  rw [hcs]
  by_cases hf : (assocFind s.curStore "").isSome
  · rw [if_pos hf]; exact hf
  · rw [if_neg hf]; simp [assocFind_assocSet_self]

/-- Claim C1 (witness for the amended theorem), at the freshly constructed
client. -/
theorem empty_path_rule_witness :
    clientDocument initState "" = (initState, .error .invalidArgument) ∧
    (clientCollection initState "").2 = .ok (.col initState.cur [""]) ∧
    (assocFind (clientCollection initState "").1.curStore "").isSome = true :=
  empty_path_rule initState (by decide)

/-- Claim C2 (counterexample): the iterator does **not** qualify nested
keys through every ancestor.  On `{a: {b: {c: 0}}}` the grandchild pair is
yielded under `b.c` (immediate parent only), not `a.b.c`, because the
recursion passes the bare key as the new prefix. -/
theorem iterator_grandchild_cx :
    (get_document_iterator
        [("a", Value.dict [("b", Value.dict [("c", Value.leaf 0)])])] "").map Prod.fst
      = ["b.c", "a.b", "a"] ∧
    "a.b.c" ∉ (get_document_iterator
        [("a", Value.dict [("b", Value.dict [("c", Value.leaf 0)])])] "").map Prod.fst := by
  constructor
  · simp [get_document_iterator]
  · simp [get_document_iterator]

/-- Claim C2 (amended): for every entry whose value is a nested mapping,
the iterator yields all of that child's pairs first — qualified with the
child's **bare key** as prefix, not the ancestor-qualified path — and only
then the pair for the mapping itself at its own (prefix-qualified) path:
the output decomposes around each nested-mapping entry as
`A ++ childPairs ++ (ownPath, child) :: B`. -/
theorem iterator_decomp (doc : Fields) : ∀ (pre k : String) (d : Fields),
    (k, Value.dict d) ∈ doc →
    ∃ A B, get_document_iterator doc pre
      = A ++ (get_document_iterator d k ++
          ((if pre = "" then k else pre ++ "." ++ k), Value.dict d) :: B) := by
  induction doc with
  | nil => intro pre k d h; simp at h
  | cons e rest ih =>
    intro pre k d h
    obtain ⟨k', v'⟩ := e
    rcases List.mem_cons.1 h with heq | hmem
    · obtain ⟨hk, hv⟩ := Prod.mk.injEq .. ▸ heq
      cases hk.symm
      cases hv.symm
      exact ⟨[], get_document_iterator rest pre, by simp [get_document_iterator]⟩
    · obtain ⟨A, B, hAB⟩ := ih pre k d hmem
      match v' with
      | .dict d2 =>
        refine ⟨(get_document_iterator d2 k' ++
          [((if pre = "" then k' else pre ++ "." ++ k'), Value.dict d2)]) ++ A, B, ?_⟩
        simp only [get_document_iterator, hAB]
        simp
      | .leaf n =>
        refine ⟨((if pre = "" then k' else pre ++ "." ++ k'), Value.leaf n) :: A, B, ?_⟩
        simp only [get_document_iterator, hAB]
        simp

/-- Claim C2 (witness for the amended theorem), on a two-entry document
with a nested mapping under `a`. -/
theorem iterator_decomp_witness :
    ∃ A B, get_document_iterator
        [("x", Value.leaf 0), ("a", Value.dict [("b", Value.leaf 1)])] ""
      = A ++ (get_document_iterator [("b", Value.leaf 1)] "a" ++
          ("a", Value.dict [("b", Value.leaf 1)]) :: B) :=
  iterator_decomp _ "" "a" [("b", Value.leaf 1)] (by simp)

/-- Claim C3 (counterexample): the `KeyError` raised by a failed `get`
carries only the missing key, not the dotted prefix consumed before it:
two traversals that consume different prefixes (`"a"` versus nothing)
before hitting the same missing key `"x"` raise **identical** errors, so
the error cannot report the consumed prefix. -/
theorem keyerror_payload_cx :
    get_by_path (.dict [("a", Value.dict [])]) ["a", "x"] = .error (.keyError "x") ∧
    get_by_path (.dict []) ["x"] = .error (.keyError "x") :=
  ⟨rfl, rfl⟩

/-- Claim C3 (amended): when a traversal reaches a mapping after consuming
a prefix and the next segment is absent there, `get` fails with a
`KeyError` naming exactly that first missing key (and nothing more — in
particular not the consumed prefix). -/
theorem get_missing_key (pre : List String) : ∀ (d d' : Fields) (k : String) (rest : List String),
    get_by_path (.dict d) pre = .ok (.dict d') →
    assocFind d' k = none →
    get_by_path (.dict d) (pre ++ k :: rest) = .error (.keyError k) := by
  induction pre with
  | nil =>
    intro d d' k rest hok hfind
    simp only [get_by_path, Except.ok.injEq, Value.dict.injEq] at hok
    subst hok
    simp [get_by_path, hfind]
  | cons q qs ih =>
    intro d d' k rest hok hfind
    simp only [get_by_path] at hok
    cases h : assocFind d q with
    | none => rw [h] at hok; exact absurd hok (by simp)
    | some v =>
      rw [h] at hok
      match v, qs with
      | .leaf x, [] => simp [get_by_path] at hok
      | .leaf x, q2 :: qs2 => simp [get_by_path] at hok
      | .dict d2, _ =>
        have := ih d2 d' k rest hok hfind
        simpa [get_by_path, h] using this

/-- Claim C3 (witness for the amended theorem): consuming prefix `a` and
then failing on the absent key `z`. -/
theorem get_missing_key_witness :
    get_by_path (.dict [("a", Value.dict [("b", Value.leaf 0)])]) ["a", "z"]
      = .error (.keyError "z") :=
  get_missing_key ["a"] [("a", Value.dict [("b", Value.leaf 0)])]
    [("b", Value.leaf 0)] "z" [] rfl rfl

/-- Claim C4 (counterexample): render-then-parse is not the identity on
every name sequence.  For `["\", "#"]` the rendered path is ``
"`\\`.`#`" ``; while lexing the first quoted element the engine commits to
reading the `\`-then-backtick pair as an escaped backtick, closes the
token only at the opening backtick of `` `#` ``, and leaves the residue
`` #` `` unconsumable, so parsing raises a ParseError. -/
theorem render_parse_cx :
    parse_field_path (render_field_path ["\\", "#"]) = none := by decide

/-- Claim C4 (amended): for every finite sequence of field names in which
no name ends with a backslash character, parsing the rendered field path
returns exactly the original sequence (simple names pass through, all
other names round-trip through backtick quoting and
backslash/backtick escaping). -/
theorem parse_render_roundtrip (names : List String)
    (h : ∀ n ∈ names, n.data.getLast? ≠ some '\\') :
    parse_field_path (render_field_path names) = some names := by
  match names with
  | [] => rfl
  | n :: ns =>
    have hC : ∀ w ∈ (n :: ns).map String.data, w.getLast? ≠ some '\\' := by
      intro w hw
      obtain ⟨m, hm, hmw⟩ := List.mem_map.1 hw
      exact hmw ▸ h m hm
    have hdata : (render_field_path (n :: ns)).data
        = renderChars ((n :: ns).map String.data) := rfl
    have hne : renderChars ((n :: ns).map String.data) ≠ [] :=
      renderChars_ne_nil _ (by simp)
    have htok := tokensGo_render ((n :: ns).map String.data)
      ((renderChars ((n :: ns).map String.data)).length) hC (le_refl _)
    have hsplitE := splitLoop_expected ((n :: ns).map String.data) [] (by simp)
    rcases hX : renderChars ((n :: ns).map String.data) with _ | ⟨x, xs⟩
    · exact absurd hX hne
    · rw [hX] at htok
      have hsplit : splitFieldPathChars (x :: xs)
          = some (((n :: ns).map String.data).map escapeName) := by
        have htokC : tokenizeChars (x :: xs) = some (expectedTokens ((n :: ns).map String.data)) := htok
        simp only [splitFieldPathChars, htokC]
        simpa using hsplitE
      show (splitFieldPathChars (render_field_path (n :: ns)).data).map
          (fun els => els.map (fun e => String.mk (unescapeElem e))) = _
      rw [hdata, hX, hsplit]
      simp only [Option.map_some']
      congr 1
      rw [List.map_map, List.map_map]
      have hmap : List.map (((fun e => String.mk (unescapeElem e)) ∘ escapeName) ∘ String.data)
          (n :: ns) = List.map id (n :: ns) :=
        List.map_congr_left (fun m hm => by
          show String.mk (unescapeElem (escapeName m.data)) = m
          rw [unescapeElem_escapeName])
      rw [hmap, List.map_id]

/-- Claim C4 (witness for the amended theorem), on a mix of a simple name,
a name needing quoting for its dot, and a lone backtick name. -/
theorem parse_render_roundtrip_witness :
    parse_field_path (render_field_path ["a", "x.y", "`"]) = some ["a", "x.y", "`"] :=
  parse_render_roundtrip ["a", "x.y", "`"] (by decide)
/-- Claim C5: for every location path string (over any client state),
`document` raises the parity exception (InvalidArgument) iff the segment
count is odd and `collection` raises it iff the count is even; with the
correct parity each operation succeeds with a reference of the right kind,
raising nothing. -/
theorem parity_rule (s : MFState) (p : String) :
    ((clientDocument s p).2 = .error .invalidArgument ↔ (splitSlash p).length % 2 = 1) ∧
    ((clientCollection s p).2 = .error .invalidArgument ↔ (splitSlash p).length % 2 = 0) ∧
    ((splitSlash p).length % 2 = 0 →
      ∃ st pth, (clientDocument s p).2 = .ok (.doc st pth)) ∧
    ((splitSlash p).length % 2 = 1 →
      ∃ st pth, (clientCollection s p).2 = .ok (.col st pth)) := by
  have hne : splitSlash p ≠ [] := splitSlash_ne_nil p
  have hpos : 0 < (splitSlash p).length := List.length_pos.2 hne
  have hdoc : (splitSlash p).length % 2 = 0 →
      ∃ st pth, (clientDocument s p).2 = .ok (.doc st pth) := by
    intro heven
    have hge2 : 2 ≤ (splitSlash p).length := by omega
    have hdlen : (splitSlash p).dropLast.length = (splitSlash p).length - 1 :=
      List.length_dropLast _
    have hdne : (splitSlash p).dropLast ≠ [] := by
      intro hcon
      rw [hcon] at hdlen
      simp at hdlen
      omega
    have hdodd : (splitSlash p).dropLast.length % 2 = 1 := by omega
    obtain ⟨st2, p2, hcol⟩ :=
      (walk_from_root (splitSlash p).dropLast hdne s).1 hdodd
    refine ⟨st2, p2 ++ [(splitSlash p).getLastD ""], ?_⟩
    simp only [clientDocument, if_neg (by omega : ¬(splitSlash p).length % 2 ≠ 0)]
    rw [hcol]
    rfl
  have hcoll : (splitSlash p).length % 2 = 1 →
      ∃ st pth, (clientCollection s p).2 = .ok (.col st pth) := by
    intro hodd
    by_cases hlen : 1 < (splitSlash p).length
    · have hdlen : (splitSlash p).dropLast.length = (splitSlash p).length - 1 :=
        List.length_dropLast _
      have hdne : (splitSlash p).dropLast ≠ [] := by
        intro hcon
        rw [hcon] at hdlen
        simp at hdlen
        omega
      have hdeven : (splitSlash p).dropLast.length % 2 = 0 := by omega
      obtain ⟨st2, p2, hdocp⟩ :=
        (walk_from_root (splitSlash p).dropLast hdne s).2 hdeven
      refine ⟨st2, p2 ++ [(splitSlash p).getLastD ""], ?_⟩
      simp only [clientCollection, if_neg (by omega : ¬(splitSlash p).length % 2 ≠ 1),
        if_pos hlen]
      rw [hdocp]
      rfl
    · refine ⟨s.cur, [(splitSlash p).getLastD ""], ?_⟩
      simp only [clientCollection, if_neg (by omega : ¬(splitSlash p).length % 2 ≠ 1),
        if_neg hlen]
      rfl
  refine ⟨?_, ?_, hdoc, hcoll⟩
  · constructor
    · intro herr
      by_contra hodd
      have heven : (splitSlash p).length % 2 = 0 := by omega
      obtain ⟨st2, pth, hok⟩ := hdoc heven
      rw [hok] at herr
      exact absurd herr (by simp)
    · intro hodd
      simp only [clientDocument, if_pos (by omega : (splitSlash p).length % 2 ≠ 0)]
  · constructor
    · intro herr
      by_contra heven
      have hodd : (splitSlash p).length % 2 = 1 := by omega
      obtain ⟨st2, pth, hok⟩ := hcoll hodd
      rw [hok] at herr
      exact absurd herr (by simp)
    · intro heven
      simp only [clientCollection, if_pos (by omega : (splitSlash p).length % 2 ≠ 1)]

/-- Claim C6 (amended): for every **non-empty** path `p` and value `v`,
provided every value already present at an intermediate position along `p`
is a mapping (decided by `pathClear` on `p[:-1]`), `set` completes without
error and a subsequent `get` at `p` returns exactly `v`, intermediate
levels being auto-created as needed. -/
theorem set_then_get (p : List String) : ∀ (d : Fields) (v : Value), p ≠ [] →
    pathClear (.dict d) p.dropLast = true →
    (set_by_path (.dict d) p v).2 = none ∧
      get_by_path (set_by_path (.dict d) p v).1 p = .ok v := by
  induction p with
  | nil => intro d v h _; exact absurd rfl h
  | cons k ks ih =>
    intro d v _ hclear
    match ks with
    | [] =>
      refine ⟨rfl, ?_⟩
      simp [set_by_path, get_by_path, assocFind_assocSet_self]
    | k2 :: ks2 =>
      have hdrop : (k :: k2 :: ks2).dropLast = k :: (k2 :: ks2).dropLast := rfl
      rw [hdrop] at hclear
      simp only [set_by_path]
      cases h : assocFind d k with
      | some child =>
        simp only [pathClear, h] at hclear
        match child with
        | .leaf x => simp at hclear
        | .dict d' =>
          have := ih d' v (by simp) hclear
          simp only [h]
          refine ⟨this.1, ?_⟩
          simp [get_by_path, assocFind_assocSet_self, this.2]
      | none =>
        have := ih [] v (by simp) (pathClear_empty _)
        simp only [h]
        refine ⟨this.1, ?_⟩
        simp [get_by_path, assocFind_assocSet_self, this.2]

/-- Claim C7: after a successful `set(root, p, v)` (non-empty `p` whose
present intermediates are mappings), `delete(root, p)` succeeds, a
subsequent `get(root, p)` fails with `KeyError` on the final segment
(NotFound), and every ancestor along `p[:-1]` is still present as a
mapping. -/
theorem set_then_delete (p : List String) : ∀ (d : Fields) (v : Value), p ≠ [] →
    pathClear (.dict d) p.dropLast = true →
    (delete_by_path (set_by_path (.dict d) p v).1 p).2 = none ∧
      get_by_path (delete_by_path (set_by_path (.dict d) p v).1 p).1 p
        = .error (.keyError (p.getLastD "")) ∧
      ∀ i, i < p.length →
        ∃ d', get_by_path (delete_by_path (set_by_path (.dict d) p v).1 p).1 (p.take i)
          = .ok (.dict d') := by
  induction p with
  | nil => intro d v h _; exact absurd rfl h
  | cons k ks ih =>
    intro d v _ hclear
    match ks with
    | [] =>
      refine ⟨?_, ?_, ?_⟩
      · simp [set_by_path, delete_by_path, assocFind_assocSet_self]
      · simp [set_by_path, delete_by_path, assocFind_assocSet_self, get_by_path,
          assocFind_assocDel_self, List.getLastD]
      · intro i hi
        have hi0 : i = 0 := by simp at hi; omega
        subst hi0
        simp [set_by_path, delete_by_path, assocFind_assocSet_self, get_by_path]
    | k2 :: ks2 =>
      have hdrop : (k :: k2 :: ks2).dropLast = k :: (k2 :: ks2).dropLast := rfl
      rw [hdrop] at hclear
      have hlast : (k :: k2 :: ks2).getLastD "" = (k2 :: ks2).getLastD "" := by
        show (k2 :: ks2).getLastD k = (k2 :: ks2).getLastD ""
        exact getLastD_irrel _ (by simp) _ _
      have step : ∀ (db : Fields), pathClear (.dict db) ((k2 :: ks2).dropLast) = true →
          (delete_by_path
              (.dict (assocSet d k (set_by_path (.dict db) (k2 :: ks2) v).1))
              (k :: k2 :: ks2)).2 = none ∧
          get_by_path (delete_by_path
              (.dict (assocSet d k (set_by_path (.dict db) (k2 :: ks2) v).1))
              (k :: k2 :: ks2)).1 (k :: k2 :: ks2)
            = .error (.keyError ((k :: k2 :: ks2).getLastD "")) ∧
          ∀ i, i < (k :: k2 :: ks2).length →
            ∃ d', get_by_path (delete_by_path
                (.dict (assocSet d k (set_by_path (.dict db) (k2 :: ks2) v).1))
                (k :: k2 :: ks2)).1 ((k :: k2 :: ks2).take i)
              = .ok (.dict d') := by
        intro db hdb
        obtain ⟨ih1, ih2, ih3⟩ := ih db v (by simp) hdb
        simp only [delete_by_path, assocFind_assocSet_self, assocSet_assocSet_self]
        refine ⟨ih1, ?_, ?_⟩
        · rw [hlast]
          simpa [get_by_path, assocFind_assocSet_self] using ih2
        · intro i hi
          match i with
          | 0 => exact ⟨_, rfl⟩
          | j + 1 =>
            have hj : j < (k2 :: ks2).length := by simpa using hi
            obtain ⟨d', hd'⟩ := ih3 j hj
            refine ⟨d', ?_⟩
            simpa [List.take_succ_cons, get_by_path, assocFind_assocSet_self] using hd'
      simp only [set_by_path]
      cases h : assocFind d k with
      | some child =>
        simp only [pathClear, h] at hclear
        match child with
        | .leaf x => simp at hclear
        | .dict d' => exact step d' hclear
      | none => exact step [] (pathClear_empty _)

/-- Claim C10: whenever `delete_by_path` raises (missing segment, missing
final key, non-mapping on the way, or empty path), the store is returned
exactly as it was — no partial mutation.  (`get_by_path` without
auto-creation is embedded as a pure function because the Python original
only performs `operator.getitem` reads; it can never mutate.) -/
theorem delete_err_pure (p : List String) : ∀ (v : Value),
    (delete_by_path v p).2.isSome → (delete_by_path v p).1 = v := by
  induction p with
  | nil => intro v _; simp [delete_by_path]
  | cons k ks ih =>
    intro v hv
    match v, ks with
    | .leaf x, [] => simp [delete_by_path]
    | .dict d, [] =>
      simp only [delete_by_path] at hv ⊢
      cases h : assocFind d k with
      | some w => simp [h] at hv
      | none => simp [h]
    | .leaf x, k2 :: ks2 => simp [delete_by_path]
    | .dict d, k2 :: ks2 =>
      simp only [delete_by_path] at hv ⊢
      cases h : assocFind d k with
      | some child =>
        simp only [h] at hv ⊢
        have := ih child
        have h2 : (delete_by_path child (k2 :: ks2)).1 = child := by
          apply this
          exact hv
        rw [h2]
        rw [assocSet_of_find_eq h]
      | none => simp [h]

/-- Claim C9 (amended): `reset` rebinds `self._data` to a **fresh** empty
dict: afterwards the instance's current store is empty and points at a new
object, while every previously existing store object — in particular any
held by references created before the reset — keeps its old contents
unchanged. -/
theorem reset_replaces (s : MFState) :
    s.reset.curStore = [] ∧
    s.reset.cur = s.stores.length ∧
    (∀ i, i < s.stores.length → s.reset.stores.getD i [] = s.stores.getD i []) := by
  refine ⟨?_, rfl, ?_⟩
  · show (s.stores ++ [[]]).getD s.stores.length [] = []
    rw [List.getD_append_right _ _ _ _ (le_refl _)]
    simp
  · intro i hi
    show (s.stores ++ [[]]).getD i [] = s.stores.getD i []
    rw [List.getD_append _ _ _ _ hi]

/-- Claim C5 (witness): concrete even-length document path and odd-length
collection path on a fresh client, both succeeding. -/
theorem parity_rule_witness :
    (∃ st pth, (clientDocument initState "users/u1").2 = .ok (.doc st pth)) ∧
    (∃ st pth, (clientCollection initState "users").2 = .ok (.col st pth)) :=
  ⟨(parity_rule initState "users/u1").2.2.1 (by decide),
   (parity_rule initState "users").2.2.2 (by decide)⟩

/-- Claim C6 (counterexample): on the **empty** path, `set` does not store
anything — evaluating `path[-1]` raises IndexError — so "set followed by
get returns `v`" fails for `p = []`, although the claim's proviso about
intermediate values holds vacuously there. -/
theorem set_empty_path_cx :
    (set_by_path (Value.dict []) [] (Value.leaf 0)).2 = some Err.indexError :=
  rfl

/-- Claim C6 (witness for the amended theorem): setting a two-segment path
whose first level exists as a mapping and whose second level is absent. -/
theorem set_then_get_witness :
    (set_by_path (.dict [("a", Value.dict [("c", Value.leaf 5)])])
        ["a", "b"] (Value.leaf 7)).2 = none ∧
      get_by_path (set_by_path (.dict [("a", Value.dict [("c", Value.leaf 5)])])
        ["a", "b"] (Value.leaf 7)).1 ["a", "b"] = .ok (Value.leaf 7) :=
  set_then_get ["a", "b"] [("a", Value.dict [("c", Value.leaf 5)])]
    (Value.leaf 7) (by simp) (by decide)

/-- Claim C7 (witness): set then delete on a fresh root at a two-segment
path; the leaf is gone, the auto-created ancestor `a` remains a mapping. -/
theorem set_then_delete_witness :
    (delete_by_path (set_by_path (.dict []) ["a", "b"] (Value.leaf 3)).1 ["a", "b"]).2 = none ∧
      get_by_path (delete_by_path
          (set_by_path (.dict []) ["a", "b"] (Value.leaf 3)).1 ["a", "b"]).1 ["a", "b"]
        = .error (.keyError "b") ∧
      ∃ d', get_by_path (delete_by_path
          (set_by_path (.dict []) ["a", "b"] (Value.leaf 3)).1 ["a", "b"]).1 ["a"]
        = .ok (.dict d') := by
  obtain ⟨h1, h2, h3⟩ := set_then_delete ["a", "b"] [] (Value.leaf 3) (by simp) (by decide)
  exact ⟨h1, h2, h3 1 (by decide)⟩

/-- Claim C8: the concrete behaviours of `parse_field_path`: plain dotted
paths split on dots, backtick-quoted elements keep their inner dots and are
unescaped, stray/leading/trailing/double delimiters raise ParseError, and
the empty string parses to the empty sequence. -/
theorem parse_field_path_examples :
    parse_field_path "a.b.c" = some ["a", "b", "c"] ∧
    parse_field_path "a.`x.y`.c" = some ["a", "x.y", "c"] ∧
    parse_field_path "a..b" = none ∧
    parse_field_path ".a" = none ∧
    parse_field_path "a." = none ∧
    parse_field_path "" = some [] :=
  ⟨by decide, by decide, by decide, by decide, by decide, by decide⟩

/-- Claim C9 (counterexample): `reset` does **not** empty the store in
place — it rebinds the attribute to a new dict.  After creating collection
`users` (whose reference holds store object `0`) and resetting, store
object `0` still contains `users` while the instance's current store is
the fresh empty object `1`: a pre-reset reference does not observe the
cleared state. -/
theorem reset_rebinds_cx :
    (clientCollection initState "users").2 = .ok (.col 0 ["users"]) ∧
    ((clientCollection initState "users").1.reset).stores.getD 0 []
      = [("users", Value.dict [])] ∧
    ((clientCollection initState "users").1.reset).cur = 1 ∧
    ((clientCollection initState "users").1.reset).curStore = [] :=
  ⟨rfl, rfl, rfl, rfl⟩

/-- Claim C9 (witness for the amended theorem), at the state reached after
creating collection `users`. -/
theorem reset_replaces_witness :
    ((clientCollection initState "users").1.reset).curStore = [] ∧
    ((clientCollection initState "users").1.reset).stores.getD 0 []
      = (clientCollection initState "users").1.stores.getD 0 [] := by
  obtain ⟨h1, _, h3⟩ := reset_replaces (clientCollection initState "users").1
  exact ⟨h1, h3 0 (by decide)⟩

/-- Claim C10 (witness): deleting a missing key from an empty root raises
and leaves the root unchanged. -/
theorem delete_err_pure_witness :
    (delete_by_path (Value.dict []) ["x"]).1 = Value.dict [] :=
  delete_err_pure ["x"] (Value.dict []) (by decide)
